import Mathlib

/-!
Verification of the KAPPA catalog reconciliation and matching engine
(`helpers/utils.py`: `_find_lib_item_match`, `_find_lib_item_dynamic`,
and the quote escaping in `KAPPA.py::kandji_customize_create_update`).

Strings are modelled as Lean `String`/`List Char`; Python dictionaries
(insertion ordered, key update in place) as association lists; Python
floats as exact rationals; uncaught Python exceptions as an explicit
`fatal` result.
-/

namespace KAPPA

/-! ## Python string primitives -/

/-- Is the first list an initial segment of the second? -/
def headSeg : List Char → List Char → Bool
  | [], _ => true
  | _ :: _, [] => false
  | a :: as, b :: bs => a = b && headSeg as bs

/-- Python `needle in hay` on `List Char`: substring containment. -/
def pyInL (needle : List Char) : List Char → Bool
  | [] => needle.isEmpty
  | b :: bs => headSeg needle (b :: bs) || pyInL needle bs

/-- Python `needle in hay` for strings: substring containment. -/
def pyIn (needle hay : String) : Bool := pyInL needle.data hay.data

/-- Python `s.endswith(suffix)`. -/
def pyEndsWith (suffix s : String) : Bool :=
  headSeg suffix.data.reverse s.data.reverse

/-- Python `os.path.basename`: the part after the last slash. -/
def basename (s : String) : String :=
  ⟨(s.data.reverse.takeWhile (fun c => c ≠ '/')).reverse⟩

/-! ## VersionSanitizer: the regex substitution pipeline

Source (`utils.py:563`):
`re_replacements = {r"_\w{8}(?=.pkg)": "", r"[ ]": ".", "[^0-9\\.]": "",
 r"[.]{2,}": ".", r"^\.|\.$": ""}`
applied in order by `reduce` over the dict items. Each regex is translated
to an explicit function on `List Char` below. -/

/-- Python regex `\w` on ASCII input: letters, digits and underscore. -/
def isWordChar (c : Char) : Bool := c.isAlphanum || c = '_'

/-- The lookahead `(?=.pkg)`: any non-newline character followed by the
literal letters p, k, g. -/
def lookAheadPkg : List Char → Bool
  | a :: 'p' :: 'k' :: 'g' :: _ => a ≠ '\n'
  | _ => false

/-- Does `_\w{8}(?=.pkg)` match at the head of the list?  Requires an
underscore, then eight word characters, then the lookahead. -/
def matchSuffix9 : List Char → Bool
  | [] => false
  | c :: rest =>
    c = '_' && (rest.take 8).length = 8 && (rest.take 8).all isWordChar &&
      lookAheadPkg (rest.drop 8)

/-- Fuel-indexed scanner for `re.sub(r"_\w{8}(?=.pkg)", "", s)`: where the
pattern matches, the nine matched characters (the underscore and the eight
word characters) are deleted and scanning resumes after them; otherwise the
scan advances by one character.  The fuel only bounds recursion depth; one
unit per consumed character always suffices. -/
def stripSuffixGo : Nat → List Char → List Char
  | 0, l => l
  | _ + 1, [] => []
  | fuel + 1, c :: rest =>
    if matchSuffix9 (c :: rest) then stripSuffixGo fuel (rest.drop 8)
    else c :: stripSuffixGo fuel rest

/-- `re.sub(r"_\w{8}(?=.pkg)", "", s)`: left-to-right scan with
non-overlapping matches. -/
def stripSuffixL (l : List Char) : List Char := stripSuffixGo l.length l

/-- `re.sub(r"[ ]", ".", s)`: every space becomes a dot. -/
def spacesToDots (l : List Char) : List Char :=
  l.map (fun c => if c = ' ' then '.' else c)

/-- `re.sub("[^0-9\\.]", "", s)`: keep only digits and dots. -/
def keepDigitsDots (l : List Char) : List Char :=
  l.filter (fun c => c.isDigit || c = '.')

/-- `re.sub(r"[.]{2,}", ".", s)`: each maximal run of dots collapses to a
single dot (a dot immediately followed by another dot is dropped; runs of
length one are unchanged). -/
def collapseDots : List Char → List Char
  | [] => []
  | a :: rest =>
    match rest with
    | [] => [a]
    | b :: _ =>
      if a = '.' && b = '.' then collapseDots rest
      else a :: collapseDots rest

/-- First half of `re.sub(r"^\.|\.$", "", s)`: drop one leading dot. -/
def dropLeadDot : List Char → List Char
  | '.' :: rest => rest
  | l => l

/-- Second half of `re.sub(r"^\.|\.$", "", s)`: drop one trailing dot. -/
def dropTrailDot (l : List Char) : List Char :=
  if l.getLast? = some '.' then l.dropLast else l

/-- `re.sub(r"^\.|\.$", "", s)`: the two alternations fire on disjoint,
non-overlapping positions (start and end), so the substitution removes one
leading dot and then one trailing dot. -/
def stripEdgeDots (l : List Char) : List Char :=
  dropTrailDot (dropLeadDot l)

/-- The ordered substitution table `re_replacements` from the source. -/
def reReplacements : List (List Char → List Char) :=
  [stripSuffixL, spacesToDots, keepDigitsDots, collapseDots, stripEdgeDots]

/-- `reduce(lambda parsed, mr: re.sub(*mr, parsed), re_replacements.items(), s)`. -/
def sanitizeL (l : List Char) : List Char :=
  reReplacements.foldl (fun acc f => f acc) l

/-- The version sanitizer on strings. -/
def sanitize (s : String) : String := ⟨sanitizeL s.data⟩

/-- Suffix stripping alone, on strings (used before similarity scoring). -/
def stripSuffixStr (s : String) : String := ⟨stripSuffixL s.data⟩

/-! ## SimilarityRanker: the sequence-matcher ratio

Modelled from the spec: the score is a normalized edit-similarity ratio in
the Ratcliff/Obershelp style (`difflib.SequenceMatcher.ratio`, an external
library): twice the total size of the recursively found longest matching
blocks divided by the sum of the lengths, and 1 when both strings are
empty.  Scores are exact rationals here where the library uses floats. -/

/-- Length of the longest common prefix of two lists. -/
def commonPrefixLen : List Char → List Char → Nat
  | a :: as, b :: bs => if a = b then commonPrefixLen as bs + 1 else 0
  | _, _ => 0

/-- All start positions `(i, j)` in row-major order: i ascending, then j. -/
def allIJ (la lb : Nat) : List (Nat × Nat) :=
  (List.range la).flatMap (fun i => (List.range lb).map (fun j => (i, j)))

/-- The longest matching block `(i, j, size)`: maximal size, with the
earliest `i` and then the earliest `j` among maxima. -/
def bestMatch (a b : List Char) : Nat × Nat × Nat :=
  (allIJ a.length b.length).foldl
    (fun best ij =>
      let k := commonPrefixLen (a.drop ij.1) (b.drop ij.2)
      if best.2.2 < k then (ij.1, ij.2, k) else best)
    (0, 0, 0)

/-- Total matched characters: the longest block plus, recursively, the
matches to its left and to its right.  The fuel only bounds recursion
depth; the combined length always suffices. -/
def rMatchesGo : Nat → List Char → List Char → Nat
  | 0, _, _ => 0
  | fuel + 1, a, b =>
    let best := bestMatch a b
    if best.2.2 = 0 then 0
    else
      rMatchesGo fuel (a.take best.1) (b.take best.2.1) + best.2.2 +
        rMatchesGo fuel (a.drop (best.1 + best.2.2)) (b.drop (best.2.1 + best.2.2))

/-- Total size of all matching blocks between two character lists. -/
def rMatches (a b : List Char) : Nat := rMatchesGo (a.length + b.length) a b

/-- `SequenceMatcher(None, a, b).ratio()`: `2 * M / T`, and 1 when `T = 0`.
Built with `mkRat` (kernel-computable) rather than field operations. -/
def ratioScore (a b : String) : ℚ :=
  if a.data.length + b.data.length = 0 then mkRat 1 1
  else mkRat (2 * rMatches a.data b.data) (a.data.length + b.data.length)

/-! ## Version keys

Modelled from the spec: `pip._vendor.packaging.version.parse` (an external
library) gives numeric dot-separated components semantic-version order,
and a non-numeric or empty string becomes a legacy version that sorts
below every numeric version and never raises. -/

/-- Split a character list on dots; `""` gives one empty group. -/
def splitDots : List Char → List (List Char)
  | [] => [[]]
  | c :: rest =>
    let r := splitDots rest
    if c = '.' then [] :: r
    else
      match r with
      | g :: gs => (c :: g) :: gs
      | [] => [[c]]

/-- Decimal value of a digit list (Python `int`). -/
def digitsToNat (l : List Char) : Nat :=
  l.foldl (fun n c => n * 10 + (c.toNat - 48)) 0

/-- Parse a version string: `some` of the numeric components when the
string is a nonempty sequence of nonempty digit groups separated by single
dots, `none` (the lowest-sorting legacy key) otherwise. -/
def parseVersion (s : String) : Option (List Nat) :=
  if s.data.isEmpty then none
  else if (splitDots s.data).all (fun g => !g.isEmpty && g.all Char.isDigit)
  then some ((splitDots s.data).map digitsToNat)
  else none

/-- Semantic-version comparison of release component lists: the shorter
list is padded with zeros (so `1.2` equals `1.2.0`). -/
def releaseCmp : List Nat → List Nat → Ordering
  | [], bs => if bs.all (fun b => b = 0) then .eq else .lt
  | a :: as, [] => if a = 0 then releaseCmp as [] else .gt
  | a :: as, b :: bs =>
    if a < b then .lt else if b < a then .gt else releaseCmp as bs

/-- Total order on version keys: legacy (`none`) sorts below everything. -/
def vkeyLe : Option (List Nat) → Option (List Nat) → Bool
  | none, _ => true
  | some _, none => false
  | some a, some b => releaseCmp a b ≠ .gt

/-! ## Timestamps

`parse_dt` (`utils.py:539`) tries `"%Y-%m-%dT%H:%M:%S.%fZ"` and then
`"%Y-%m-%dT%H:%M:%SZ"`; an unparseable string raises an uncaught
`ValueError`.  `.astimezone()` attaches the same local zone to every
parsed value, so comparisons coincide with field-lexicographic order,
which is how `DT` values are compared here. -/

structure DT where
  y : Nat
  mo : Nat
  d : Nat
  h : Nat
  mi : Nat
  s : Nat
  us : Nat
deriving DecidableEq, Repr

/-- Chronological (field-lexicographic) strict order on timestamps. -/
def dtLt (a b : DT) : Bool :=
  a.y < b.y || (a.y = b.y && (a.mo < b.mo || (a.mo = b.mo &&
    (a.d < b.d || (a.d = b.d && (a.h < b.h || (a.h = b.h &&
      (a.mi < b.mi || (a.mi = b.mi && (a.s < b.s || (a.s = b.s &&
        a.us < b.us)))))))))))

/-- Python tuple comparison on `(pkg_uploaded, custom_li_modified)` keys. -/
def dtPairLt (a b : DT × DT) : Bool :=
  dtLt a.1 b.1 || (a.1 = b.1 && dtLt a.2 b.2)

def digitVal (c : Char) : Nat := c.toNat - 48

/-- `strptime` `%Y`: exactly four digits. -/
def take4Digits : List Char → Option (Nat × List Char)
  | c1 :: c2 :: c3 :: c4 :: rest =>
    if c1.isDigit && c2.isDigit && c3.isDigit && c4.isDigit
    then some (digitsToNat [c1, c2, c3, c4], rest)
    else none
  | _ => none

/-- `strptime` two-or-one digit fields (`%m`, `%d`, `%H`, `%M`, `%S`):
greedily two digits, else one.  The regex alternations never need
backtracking here because each field is followed by a non-digit literal. -/
def take2or1Digits : List Char → Option (Nat × List Char)
  | c1 :: c2 :: rest =>
    if c1.isDigit then
      if c2.isDigit then some (digitVal c1 * 10 + digitVal c2, rest)
      else some (digitVal c1, c2 :: rest)
    else none
  | [c1] => if c1.isDigit then some (digitVal c1, []) else none
  | [] => none

/-- One expected literal character. -/
def expectChar (c : Char) : List Char → Option (List Char)
  | x :: rest => if x = c then some rest else none
  | [] => none

def isLeapYear (y : Nat) : Bool := (y % 4 = 0 && y % 100 ≠ 0) || y % 400 = 0

def daysInMonth (y mo : Nat) : Nat :=
  if mo = 2 then (if isLeapYear y then 29 else 28)
  else if mo = 4 || mo = 6 || mo = 9 || mo = 11 then 30
  else 31

/-- The `datetime` constructor checks applied after the format match
(`MINYEAR`, month, day-of-month, hour, minute, second ranges). -/
def validDT (t : DT) : Bool :=
  1 ≤ t.y && 1 ≤ t.mo && t.mo ≤ 12 && 1 ≤ t.d && t.d ≤ daysInMonth t.y t.mo &&
    t.h ≤ 23 && t.mi ≤ 59 && t.s ≤ 59 && t.us ≤ 999999

/-- Shared prefix `%Y-%m-%dT%H:%M:%S` of both accepted formats. -/
def parseDtCore (l : List Char) : Option (DT × List Char) := do
  let (y, l) ← take4Digits l
  let l ← expectChar '-' l
  let (mo, l) ← take2or1Digits l
  let l ← expectChar '-' l
  let (d, l) ← take2or1Digits l
  let l ← expectChar 'T' l
  let (h, l) ← take2or1Digits l
  let l ← expectChar ':' l
  let (mi, l) ← take2or1Digits l
  let l ← expectChar ':' l
  let (s, l) ← take2or1Digits l
  pure (⟨y, mo, d, h, mi, s, 0⟩, l)

def pow10 : Nat → Nat
  | 0 => 1
  | n + 1 => 10 * pow10 n

/-- `datetime.strptime(s, "%Y-%m-%dT%H:%M:%S.%fZ")` as an option. -/
def parseFmtFrac (str : String) : Option DT := do
  let (t, l) ← parseDtCore str.data
  let l ← expectChar '.' l
  let frac := l.takeWhile Char.isDigit
  let rest := l.dropWhile Char.isDigit
  if frac.isEmpty || 6 < frac.length then none
  else if rest = ['Z'] then
    let t := { t with us := digitsToNat frac * pow10 (6 - frac.length) }
    if validDT t then some t else none
  else none

/-- `datetime.strptime(s, "%Y-%m-%dT%H:%M:%SZ")` as an option. -/
def parseFmtPlain (str : String) : Option DT := do
  let (t, l) ← parseDtCore str.data
  if l = ['Z'] then if validDT t then some t else none else none

/-- `parse_dt` (`utils.py:539`): first format, then the second; `none`
models the uncaught `ValueError`. -/
def parseDt (str : String) : Option DT :=
  match parseFmtFrac str with
  | some t => some t
  | none => parseFmtPlain str

/-! ## Python `sorted(..., key=k, reverse=True)` and `dict`

`sorted` with `reverse=True` is stable and descending: `x` precedes `y`
exactly when `k x > k y`, or `k x` and `k y` are unordered-equal and `x`
came first.  Insertion into a Python dict updates an existing key in place
(keeping its position) and appends a new key. -/

def insertDescBy (key : α → κ) (le : κ → κ → Bool) (x : α) : List α → List α
  | [] => [x]
  | y :: ys =>
    if le (key y) (key x) then x :: y :: ys else y :: insertDescBy key le x ys

def sortDescBy (key : α → κ) (le : κ → κ → Bool) : List α → List α
  | [] => []
  | x :: xs => insertDescBy key le x (sortDescBy key le xs)

def dictInsert (k : String) (v : β) : List (String × β) → List (String × β)
  | [] => [(k, v)]
  | (k', v') :: rest =>
    if k' = k then (k, v) :: rest else (k', v') :: dictInsert k v rest

/-! ## Data model -/

/-- One Kandji custom-app record, with the fields the matching engine
reads. -/
structure CatalogEntry where
  id : String
  name : String
  file_key : String
  install_enforcement : String
  show_in_self_service : Bool
  self_service_category_id : Option String
  created_at : String
  updated_at : String
  file_updated : String
deriving DecidableEq, Repr

/-- The instance state `_find_lib_item_match` reads. -/
structure Config where
  custom_app_name : String
  pkg_name : String
  custom_app_enforcement : String
  ss_category_id : Option String
  default_auto_create : Bool
  default_dynamic_lookup : Bool
deriving DecidableEq, Repr

/-- Return value of `_find_lib_item_match` / `_find_lib_item_dynamic`:
a single entry dict, `None` after the duplicate report (carrying the
reported hits), `False`, or an uncaught exception. -/
inductive MatchResult where
  | found (e : CatalogEntry)
  | ambiguous (hits : List CatalogEntry)
  | notFound
  | fatal
deriving DecidableEq, Repr

/-- Python truthiness of an optional string. -/
def pyTruthyOptStr : Option String → Bool
  | none => false
  | some s => !s.isEmpty

/-! ## `_find_lib_item_dynamic` (`utils.py:529`) -/

/-- `all_pkg_names`: basenames of `file_key`s ending in `.pkg`. -/
def allPkgNames (apps : List CatalogEntry) : List String :=
  (apps.filter (fun a => pyEndsWith ".pkg" a.file_key)).map (fun a => basename a.file_key)

/-- One similarity score: suffix-stripped candidate against the new
package's filename. -/
def simScore (pkgName pkg : String) : ℚ := ratioScore (stripSuffixStr pkg) pkgName

/-- The `similarity_scores` dict. -/
def similarityScores (pkgName : String) (apps : List CatalogEntry) : List (String × ℚ) :=
  (allPkgNames apps).foldl (fun d pkg => dictInsert pkg (simScore pkgName pkg) d) []

def qle (a b : ℚ) : Bool := decide (a ≤ b)

/-- `sorted_similar_pkgs`: scores sorted descending (stable). -/
def sortedSimilarPkgs (pkgName : String) (apps : List CatalogEntry) : List (String × ℚ) :=
  sortDescBy (fun kv => kv.2) qle (similarityScores pkgName apps)

def ratioLimit : ℚ := mkRat 17 20

/-- `possible_pkgs`: names whose score meets the threshold. -/
def possiblePkgs (pkgName : String) (apps : List CatalogEntry) : List String :=
  ((sortedSimilarPkgs pkgName apps).filter (fun kv => ratioLimit ≤ kv.2)).map Prod.fst

/-- `matching_pkgs`: candidates that occur inside some seed `file_key`. -/
def matchingPkgs (seed : List CatalogEntry) (pp : List String) : List String :=
  seed.foldl (fun acc possible => acc ++ pp.filter (fun pkg => pyIn pkg possible.file_key)) []

/-- First-occurrence deduplication. -/
def dedupFirst (l : List String) : List String :=
  l.foldl (fun acc x => if x ∈ acc then acc else acc ++ [x]) []

/-- `"".join({possible.get("name") for possible in possible_apps})`.
Python set iteration order is unspecified; first-occurrence order is used
here, and no theorem below depends on the order when several distinct
names are joined. -/
def joinedSeedNames (seed : List CatalogEntry) : String :=
  String.join (dedupFirst (seed.map (fun a => a.name)))

/-- The `pkgs_versions` dict comprehension. -/
def pkgsVersions (pp : List String) : List (String × String) :=
  pp.foldl (fun d pkg => dictInsert pkg (sanitize pkg) d) []

/-- `pkgs_versions_sorted`: semantic-version descending (stable). -/
def pkgsVersionsSorted (pp : List String) : List (String × String) :=
  sortDescBy (fun kv => parseVersion kv.2) vkeyLe (pkgsVersions pp)

/-- `pkg_custom_app_updated`: for each tied name, the `file_updated` and
`updated_at` of the first catalog entry whose `file_key` contains it; a
name contained in no entry is skipped (`except StopIteration: pass`). -/
def updatedMap (apps : List CatalogEntry) (hv : List String) :
    List (String × String × String) :=
  hv.foldl (fun d pkg =>
    match apps.find? (fun a => pyIn pkg a.file_key) with
    | some r => dictInsert pkg (r.file_updated, r.updated_at) d
    | none => d) []

/-- `min(pkg_custom_app_updated, key=...)`: the first key with the
lexicographically least `(parse_dt uploaded, parse_dt modified)`.  `none`
models the uncaught `ValueError` (empty dict, or an unparseable
timestamp). -/
def minByDt (l : List (String × String × String)) : Option String := do
  let parsed ← l.mapM (fun kv => do
    let d1 ← parseDt kv.2.1
    let d2 ← parseDt kv.2.2
    pure (kv.1, d1, d2))
  match parsed with
  | [] => none
  | x :: xs => some (xs.foldl (fun m y => if dtPairLt y.2 m.2 then y else m) x).1

/-- The by-name fallback: when several entries share the winning filename
and a seed name label is known, keep entries whose name contains it. -/
def scopeByName (m : List CatalogEntry) (providedName : Option String) :
    List CatalogEntry :=
  if 1 < m.length then
    match providedName with
    | some pn => m.filter (fun a => pyIn pn a.name)
    | none => m
  else m

/-- The tail of `_find_lib_item_dynamic`: map the selected filename back to
a catalog entry, with the by-name fallback when several entries share it. -/
def finishDynamic (apps : List CatalogEntry) (providedName : Option String)
    (chosenPkg : String) : MatchResult :=
  match scopeByName (apps.filter (fun a => pyIn chosenPkg a.file_key)) providedName with
  | [] => .notFound
  | e :: _ => .found e

/-- The candidate set after the optional seed scoping: with a seed, names
occurring inside a seed `file_key` replace the threshold survivors unless
that restriction is empty. -/
def dynamicPkgs (cfg : Config) (apps seed : List CatalogEntry) : List String :=
  if seed.isEmpty then possiblePkgs cfg.pkg_name apps
  else
    if (matchingPkgs seed (possiblePkgs cfg.pkg_name apps)).isEmpty then
      possiblePkgs cfg.pkg_name apps
    else matchingPkgs seed (possiblePkgs cfg.pkg_name apps)

/-- `provided_app_name`: set exactly when a seed was given. -/
def seedName (seed : List CatalogEntry) : Option String :=
  if seed.isEmpty then none else some (joinedSeedNames seed)

/-- `highest_vers`: the names whose sanitized version contains the top
version as a substring. -/
def highestVers (pvs : List (String × String)) (topVers : String) : List String :=
  (pvs.filter (fun kv => pyIn topVers kv.2)).map Prod.fst

/-- `_find_lib_item_dynamic`: similarity filter, optional seed scoping,
semantic-version ranking, oldest-entry tie-break, and the map back to a
catalog entry.  An empty pipeline result is the caught `StopIteration`
(`notFound`). -/
def findLibItemDynamic (cfg : Config) (apps seed : List CatalogEntry) : MatchResult :=
  match pkgsVersionsSorted (dynamicPkgs cfg apps seed) with
  | [] => .notFound
  | (topPkg, topVers) :: rest =>
    if 1 < (highestVers ((topPkg, topVers) :: rest) topVers).length then
      match minByDt (updatedMap apps (highestVers ((topPkg, topVers) :: rest) topVers)) with
      | none => .fatal
      | some oldest => finishDynamic apps (seedName seed) oldest
    else finishDynamic apps (seedName seed) topPkg

/-! ## `_find_lib_item_match` (`utils.py:464`) -/

/-- `app_picker`: catalog entries whose name equals the target exactly. -/
def exactHits (target : String) (apps : List CatalogEntry) : List CatalogEntry :=
  apps.filter (fun a => a.name == target)

/-- `_find_lib_item_match`.  The duplicate-report branch formats each hit's
`created_at` with `strptime(.., "%Y-%m-%dT%H:%M:%S.%fZ")` before returning
`None`; an unparseable value there raises uncaught (`fatal`). -/
def ssNarrow (cfg : Config) (hits : List CatalogEntry) : List CatalogEntry :=
  hits.filter (fun a =>
    a.show_in_self_service && a.self_service_category_id == cfg.ss_category_id)

def findLibItemMatch (cfg : Config) (apps : List CatalogEntry) : MatchResult :=
  if (exactHits cfg.custom_app_name apps).isEmpty then
    if cfg.default_auto_create then .notFound
    else if cfg.default_dynamic_lookup then findLibItemDynamic cfg apps []
    else .notFound
  else if 1 < (exactHits cfg.custom_app_name apps).length then
    if pyTruthyOptStr cfg.ss_category_id &&
        cfg.custom_app_enforcement == "no_enforcement" &&
        ((ssNarrow cfg (exactHits cfg.custom_app_name apps)).length == 1) then
      match ssNarrow cfg (exactHits cfg.custom_app_name apps) with
      | e :: _ => .found e
      | [] => .notFound
    else if cfg.default_dynamic_lookup then
      findLibItemDynamic cfg apps (exactHits cfg.custom_app_name apps)
    else if (exactHits cfg.custom_app_name apps).all
        (fun a => (parseFmtFrac a.created_at).isSome) then
      .ambiguous (exactHits cfg.custom_app_name apps)
    else .fatal
  else
    match exactHits cfg.custom_app_name apps with
    | e :: _ => .found e
    | [] => .notFound

/-- `MatchOutcome` as consumed by `update_custom_app` (`KAPPA.py:143`):
`False` becomes create-new when auto-create is enabled and no-match
otherwise; `None` is the ambiguous abort. -/
inductive MatchOutcome where
  | Matched (e : CatalogEntry)
  | CreateNew
  | Ambiguous (hits : List CatalogEntry)
  | NoMatch
  | Fatal
deriving DecidableEq, Repr

def resolveOutcome (cfg : Config) (apps : List CatalogEntry) : MatchOutcome :=
  match findLibItemMatch cfg apps with
  | .found e => .Matched e
  | .ambiguous hits => .Ambiguous hits
  | .fatal => .Fatal
  | .notFound => if cfg.default_auto_create then .CreateNew else .NoMatch

/-! ## Quote escaping (`KAPPA.py:210`) -/

/-- `self.custom_app_name.replace(r"'", r"'\''")` on characters. -/
def escQ : List Char → List Char
  | [] => []
  | c :: rest =>
    if c = '\'' then '\'' :: '\\' :: '\'' :: '\'' :: escQ rest
    else c :: escQ rest

/-- The shell escape applied to the target name before create/update. -/
def escapeQuotes (s : String) : String := ⟨escQ s.data⟩

/-- `kandji_customize_create_update` escapes the name, then the update flow
resolves with the escaped target. -/
def resolveWithEscapedName (cfg : Config) (apps : List CatalogEntry) : MatchResult :=
  findLibItemMatch { cfg with custom_app_name := escapeQuotes cfg.custom_app_name } apps

/-! ## Auxiliary predicates used by the theorems -/

/-- A digit or a dot (the character class kept by the sanitizer). -/
def digitDotB (c : Char) : Bool := c.isDigit || c = '.'

/-- No two adjacent dots. -/
def noDDb : List Char → Bool
  | a :: rest =>
    (match rest with
     | b :: _ => !(a = '.' && b = '.')
     | [] => true) && noDDb rest
  | [] => true

/-- The first character, if any, is not a dot. -/
def headNotDot : List Char → Bool
  | [] => true
  | c :: _ => c ≠ '.'

/-- The last character, if any, is not a dot. -/
def lastNotDot (l : List Char) : Bool := l.getLast? ≠ some '.'

/-- The entries a result reports as matched (at most one by shape). -/
def matchedEntries : MatchResult → List CatalogEntry
  | .found e => [e]
  | _ => []

/-! # Sanitizer lemmas -/

theorem collapseDots_cons_cons (a b : Char) (rest : List Char) :
    collapseDots (a :: b :: rest) =
      if a = '.' && b = '.' then collapseDots (b :: rest)
      else a :: collapseDots (b :: rest) := rfl

theorem collapseDots_cons_of_ne {b : Char} (hb : b ≠ '.') (rest : List Char) :
    collapseDots (b :: rest) = b :: collapseDots rest := by
  cases rest with
  | nil => rfl
  | cons c rest' => rw [collapseDots_cons_cons, if_neg]; simp [hb]

theorem mem_collapseDots {c : Char} :
    ∀ {l : List Char}, c ∈ collapseDots l → c ∈ l ∨ c = '.'
  | [], h => by simp [collapseDots] at h
  | [a], h => by
    simp only [collapseDots] at h
    left; exact h
  | a :: b :: rest, h => by
    rw [collapseDots_cons_cons] at h
    split at h
    · rcases mem_collapseDots h with hm | hd
      · exact Or.inl (List.mem_cons_of_mem a hm)
      · exact Or.inr hd
    · rcases List.mem_cons.mp h with rfl | hm
      · exact Or.inl (List.mem_cons_self _ _)
      · rcases mem_collapseDots hm with hm' | hd
        · exact Or.inl (List.mem_cons_of_mem a hm')
        · exact Or.inr hd

theorem noDDb_cons_cons (a b : Char) (t : List Char) :
    noDDb (a :: b :: t) = (!(a = '.' && b = '.') && noDDb (b :: t)) := rfl

theorem noDDb_tail {a : Char} {l : List Char} (h : noDDb (a :: l) = true) :
    noDDb l = true := by
  cases l with
  | nil => rfl
  | cons b t => exact (Bool.and_eq_true_iff.mp ((noDDb_cons_cons a b t) ▸ h)).2

theorem noDDb_cons' {a : Char} {X : List Char} (h1 : noDDb X = true)
    (h2 : a = '.' → headNotDot X = true) : noDDb (a :: X) = true := by
  cases X with
  | nil => rfl
  | cons b t =>
    rw [noDDb_cons_cons, Bool.and_eq_true_iff]
    refine ⟨?_, h1⟩
    by_cases ha : a = '.'
    · have hb := h2 ha
      simp only [headNotDot] at hb
      simp [ha, of_decide_eq_true hb]
    · simp [ha]

theorem headNotDot_collapseDots {b : Char} (hb : b ≠ '.') (rest : List Char) :
    headNotDot (collapseDots (b :: rest)) = true := by
  rw [collapseDots_cons_of_ne hb]
  simpa [headNotDot] using hb

theorem noDDb_collapseDots : ∀ (l : List Char), noDDb (collapseDots l) = true
  | [] => rfl
  | [a] => rfl
  | a :: b :: rest => by
    rw [collapseDots_cons_cons]
    split
    · exact noDDb_collapseDots (b :: rest)
    · refine noDDb_cons' (noDDb_collapseDots (b :: rest)) (fun ha => ?_)
      have hb : b ≠ '.' := by
        intro hbe
        simp [ha, hbe] at *
      exact headNotDot_collapseDots hb rest

theorem collapseDots_id : ∀ {l : List Char}, noDDb l = true → collapseDots l = l
  | [], _ => rfl
  | [a], _ => rfl
  | a :: b :: rest, h => by
    have hd := (Bool.and_eq_true_iff.mp ((noDDb_cons_cons a b rest) ▸ h)).1
    have hd' : (a = '.' && b = '.') = false := by
      rwa [Bool.not_eq_true'] at hd
    rw [collapseDots_cons_cons, hd']
    simp only [Bool.false_eq_true, if_false]
    rw [collapseDots_id (noDDb_tail h)]

theorem matchSuffix9_cons_ne {c : Char} (hc : c ≠ '_') (l : List Char) :
    matchSuffix9 (c :: l) = false := by
  simp [matchSuffix9, hc]

theorem stripSuffixGo_id : ∀ (fuel : Nat) (l : List Char),
    (∀ c ∈ l, c ≠ '_') → stripSuffixGo fuel l = l
  | 0, _, _ => rfl
  | _ + 1, [], _ => rfl
  | fuel + 1, c :: rest, h => by
    have hc : c ≠ '_' := h c (List.mem_cons_self _ _)
    rw [stripSuffixGo, matchSuffix9_cons_ne hc]
    simpa using stripSuffixGo_id fuel rest (fun x hx => h x (List.mem_cons_of_mem _ hx))

theorem stripSuffixL_id {l : List Char} (h : ∀ c ∈ l, c ≠ '_') :
    stripSuffixL l = l := stripSuffixGo_id _ l h

theorem spacesToDots_id {l : List Char} (h : ∀ c ∈ l, c ≠ ' ') :
    spacesToDots l = l := by
  induction l with
  | nil => rfl
  | cons a t ih =>
    simp only [spacesToDots, List.map_cons] at ih ⊢
    rw [if_neg (h a (List.mem_cons_self _ _)),
      ih (fun x hx => h x (List.mem_cons_of_mem _ hx))]

theorem keepDigitsDots_id {l : List Char} (h : ∀ c ∈ l, digitDotB c = true) :
    keepDigitsDots l = l :=
  List.filter_eq_self.mpr h

theorem dropLeadDot_cons_dot (t : List Char) : dropLeadDot ('.' :: t) = t := rfl

theorem dropLeadDot_cons_ne {c : Char} (hc : c ≠ '.') (t : List Char) :
    dropLeadDot (c :: t) = c :: t := by
  unfold dropLeadDot
  split
  · rename_i rest heq
    injection heq with h1 _
    exact absurd h1 hc
  · rfl

theorem dropLeadDot_of_headNot {l : List Char} (h : headNotDot l = true) :
    dropLeadDot l = l := by
  cases l with
  | nil => rfl
  | cons c t => exact dropLeadDot_cons_ne (by simpa [headNotDot] using h) t

theorem dropTrailDot_of_lastNot {l : List Char} (h : lastNotDot l = true) :
    dropTrailDot l = l := by
  unfold dropTrailDot
  rw [if_neg]
  simpa [lastNotDot] using h

theorem stripEdgeDots_id {l : List Char} (h1 : headNotDot l = true)
    (h2 : lastNotDot l = true) : stripEdgeDots l = l := by
  unfold stripEdgeDots
  rw [dropLeadDot_of_headNot h1, dropTrailDot_of_lastNot h2]

theorem mem_dropLeadDot {c : Char} {l : List Char} (h : c ∈ dropLeadDot l) :
    c ∈ l := by
  cases l with
  | nil => exact h
  | cons a t =>
    by_cases ha : a = '.'
    · subst ha
      rw [dropLeadDot_cons_dot] at h
      exact List.mem_cons_of_mem _ h
    · rwa [dropLeadDot_cons_ne ha] at h

theorem mem_dropTrailDot {c : Char} {l : List Char} (h : c ∈ dropTrailDot l) :
    c ∈ l := by
  unfold dropTrailDot at h
  split at h
  · exact (List.dropLast_sublist l).subset h
  · exact h

theorem headNotDot_dropLeadDot {l : List Char} (h : noDDb l = true) :
    headNotDot (dropLeadDot l) = true := by
  cases l with
  | nil => rfl
  | cons c t =>
    by_cases hc : c = '.'
    · subst hc
      rw [dropLeadDot_cons_dot]
      cases t with
      | nil => rfl
      | cons b t' =>
        have hd := (Bool.and_eq_true_iff.mp ((noDDb_cons_cons _ b t') ▸ h)).1
        have hb : b ≠ '.' := by simpa using hd
        simpa [headNotDot] using hb
    · rw [dropLeadDot_of_headNot (by simpa [headNotDot] using hc)]
      simpa [headNotDot] using hc

theorem headNotDot_dropLast : ∀ {l : List Char}, headNotDot l = true →
    headNotDot l.dropLast = true
  | [], _ => rfl
  | [_], _ => rfl
  | a :: b :: t, h => by
    have : (a :: b :: t).dropLast = a :: (b :: t).dropLast := rfl
    rw [this]
    simpa [headNotDot] using h

theorem headNotDot_dropTrailDot {l : List Char} (h : headNotDot l = true) :
    headNotDot (dropTrailDot l) = true := by
  unfold dropTrailDot
  split
  · exact headNotDot_dropLast h
  · exact h

theorem noDDb_dropLeadDot {l : List Char} (h : noDDb l = true) :
    noDDb (dropLeadDot l) = true := by
  cases l with
  | nil => rfl
  | cons c t =>
    by_cases hc : c = '.'
    · subst hc
      rw [dropLeadDot_cons_dot]
      exact noDDb_tail h
    · rwa [dropLeadDot_cons_ne hc]

theorem lastNot_dropLast_aux : ∀ {l : List Char}, noDDb l = true →
    l.getLast? = some '.' → lastNotDot l.dropLast = true
  | [], _, hl => by simp at hl
  | [x], _, _ => by simp [lastNotDot, List.dropLast]
  | x :: y :: t, h, hl => by
    have hl' : (y :: t).getLast? = some '.' := by
      rwa [List.getLast?_cons_cons] at hl
    have ih := lastNot_dropLast_aux (noDDb_tail h) hl'
    show lastNotDot (x :: (y :: t).dropLast) = true
    cases t with
    | nil =>
      have hy : y = '.' := by simpa using hl'
      have hd := (Bool.and_eq_true_iff.mp ((noDDb_cons_cons x y []) ▸ h)).1
      have hx : x ≠ '.' := by
        intro hxe
        simp [hxe, hy] at hd
      simpa [lastNotDot, List.dropLast] using hx
    | cons c t' =>
      have hne : (y :: c :: t').dropLast = y :: (c :: t').dropLast := rfl
      rw [hne] at ih ⊢
      unfold lastNotDot at ih ⊢
      rwa [List.getLast?_cons_cons]

theorem lastNotDot_dropTrailDot {l : List Char} (h : noDDb l = true) :
    lastNotDot (dropTrailDot l) = true := by
  unfold dropTrailDot
  split
  · rename_i hl
    exact lastNot_dropLast_aux h hl
  · rename_i hl
    simpa [lastNotDot] using hl

theorem noDDb_dropLast : ∀ {l : List Char}, noDDb l = true →
    noDDb l.dropLast = true
  | [], _ => rfl
  | [_], _ => rfl
  | x :: y :: t, h => by
    have hdc : (x :: y :: t).dropLast = x :: (y :: t).dropLast := rfl
    rw [hdc]
    refine noDDb_cons' (noDDb_dropLast (noDDb_tail h)) (fun hx => ?_)
    cases t with
    | nil => rfl
    | cons c t' =>
      have hne : (y :: c :: t').dropLast = y :: (c :: t').dropLast := rfl
      rw [hne]
      have hd := (Bool.and_eq_true_iff.mp ((noDDb_cons_cons x y (c :: t')) ▸ h)).1
      have hy : y ≠ '.' := by
        intro hye
        simp [hx, hye] at hd
      simpa [headNotDot] using hy

theorem noDDb_dropTrailDot {l : List Char} (h : noDDb l = true) :
    noDDb (dropTrailDot l) = true := by
  unfold dropTrailDot
  split
  · exact noDDb_dropLast h
  · exact h

/-- The pipeline as explicit composition (definitional). -/
theorem sanitizeL_eq (l : List Char) :
    sanitizeL l =
      stripEdgeDots (collapseDots (keepDigitsDots (spacesToDots (stripSuffixL l)))) := rfl

/-- Characters surviving the whole pipeline are digits or dots. -/
theorem sanitizeL_all_digitDot (l : List Char) :
    ∀ c ∈ sanitizeL l, digitDotB c = true := by
  intro c hc
  rw [sanitizeL_eq] at hc
  have h4 : c ∈ collapseDots (keepDigitsDots (spacesToDots (stripSuffixL l))) :=
    mem_dropLeadDot (mem_dropTrailDot hc)
  rcases mem_collapseDots h4 with hm | rfl
  · exact List.of_mem_filter hm
  · simp [digitDotB]

theorem sanitizeL_noDDb (l : List Char) : noDDb (sanitizeL l) = true := by
  rw [sanitizeL_eq]
  exact noDDb_dropTrailDot (noDDb_dropLeadDot
    (noDDb_collapseDots (keepDigitsDots (spacesToDots (stripSuffixL l)))))

theorem sanitizeL_headNotDot (l : List Char) : headNotDot (sanitizeL l) = true := by
  rw [sanitizeL_eq]
  exact headNotDot_dropTrailDot (headNotDot_dropLeadDot
    (noDDb_collapseDots (keepDigitsDots (spacesToDots (stripSuffixL l)))))

theorem sanitizeL_lastNotDot (l : List Char) : lastNotDot (sanitizeL l) = true := by
  rw [sanitizeL_eq]
  exact lastNotDot_dropTrailDot (noDDb_dropLeadDot
    (noDDb_collapseDots (keepDigitsDots (spacesToDots (stripSuffixL l)))))

/-- The pipeline fixes any list of digits and dots with no double dots and
no leading or trailing dot. -/
theorem sanitizeL_fixed {m : List Char} (hall : ∀ c ∈ m, digitDotB c = true)
    (hdd : noDDb m = true) (hh : headNotDot m = true) (hl : lastNotDot m = true) :
    sanitizeL m = m := by
  rw [sanitizeL_eq]
  have hnu : ∀ c ∈ m, c ≠ '_' := by
    intro c hc he
    have := hall c hc
    simp [he, digitDotB, isWordChar] at this
  have hns : ∀ c ∈ m, c ≠ ' ' := by
    intro c hc he
    have := hall c hc
    simp [he, digitDotB] at this
  rw [stripSuffixL_id hnu, spacesToDots_id hns, keepDigitsDots_id hall,
    collapseDots_id hdd, stripEdgeDots_id hh hl]

/-- C7 core: the sanitizer is idempotent on character lists. -/
theorem sanitizeL_idem (l : List Char) : sanitizeL (sanitizeL l) = sanitizeL l :=
  sanitizeL_fixed (sanitizeL_all_digitDot l) (sanitizeL_noDDb l)
    (sanitizeL_headNotDot l) (sanitizeL_lastNotDot l)


/-! # Claim theorems: sanitizer -/

/-- C8: for every input string, the version sanitizer equals the sequential
composition, in this fixed order, of (1) stripping the 8-character
upload-identifier suffix, (2) replacing spaces with dots, (3) removing
every character that is not a digit or a dot, (4) collapsing each run of
two or more consecutive dots into one, and (5) stripping a leading or
trailing dot, each step applied to the previous step's output. -/
theorem sanitize_is_ordered_composition (s : String) :
    sanitize s =
      ⟨stripEdgeDots (collapseDots (keepDigitsDots (spacesToDots (stripSuffixL s.data))))⟩ :=
  rfl

/-- C7: the version sanitizer is idempotent: applying the sanitization
pipeline to its own output returns that output unchanged. -/
theorem sanitize_idempotent (s : String) : sanitize (sanitize s) = sanitize s :=
  congrArg (fun l => (⟨l⟩ : String)) (sanitizeL_idem s.data)

/-! # Claim theorems: quote escaping -/

theorem escQ_length (l : List Char) :
    (escQ l).length = l.length + 3 * (l.count '\'') := by
  induction l with
  | nil => rfl
  | cons c t ih =>
    by_cases hc : c = '\''
    · subst hc
      simp only [escQ, if_pos rfl, List.length_cons, List.count_cons, ih]
      simp
      omega
    · simp only [escQ, if_neg hc, List.length_cons, List.count_cons, ih]
      simp [hc]
      omega

theorem escapeQuotes_ne {s : String} (h : '\'' ∈ s.data) :
    escapeQuotes s ≠ s := by
  intro he
  have hd : (escapeQuotes s).data = s.data := congrArg String.data he
  have hlen : (escQ s.data).length = s.data.length := congrArg List.length hd
  rw [escQ_length] at hlen
  have hc : 0 < s.data.count '\'' := List.count_pos_iff.mpr h
  omega

/-- C10: the target name has every single quote replaced by the shell
escape sequence before the exact-name lookup runs, so an entry whose
stored name equals the unescaped quote-containing target never produces an
exact-name hit. -/
theorem quote_escape_blocks_exact_hit (raw : String) (hq : '\'' ∈ raw.data)
    (e : CatalogEntry) (hn : e.name = raw) :
    escapeQuotes raw ≠ raw ∧
      ∀ apps : List CatalogEntry, e ∉ exactHits (escapeQuotes raw) apps := by
  refine ⟨escapeQuotes_ne hq, fun apps hmem => ?_⟩
  have hb := List.of_mem_filter hmem
  have he : e.name = escapeQuotes raw := by simpa using hb
  exact escapeQuotes_ne hq (he.symm.trans hn)


theorem quote_escape_blocks_exact_hit_witness :
    escapeQuotes (String.mk ['O', '\'', 'B']) ≠ String.mk ['O', '\'', 'B'] ∧
      (⟨"1", String.mk ['O', '\'', 'B'], "f.pkg", "install_once", false, none,
        "", "", ""⟩ : CatalogEntry) ∉
        exactHits (escapeQuotes (String.mk ['O', '\'', 'B']))
          [⟨"1", String.mk ['O', '\'', 'B'], "f.pkg", "install_once", false, none,
            "", "", ""⟩] :=
  ⟨(quote_escape_blocks_exact_hit (String.mk ['O', '\'', 'B']) (by decide)
      ⟨"1", String.mk ['O', '\'', 'B'], "f.pkg", "install_once", false, none,
        "", "", ""⟩ rfl).1,
    (quote_escape_blocks_exact_hit (String.mk ['O', '\'', 'B']) (by decide)
      ⟨"1", String.mk ['O', '\'', 'B'], "f.pkg", "install_once", false, none,
        "", "", ""⟩ rfl).2
      [⟨"1", String.mk ['O', '\'', 'B'], "f.pkg", "install_once", false, none,
        "", "", ""⟩]⟩

/-! # Claim theorems: resolver state machine -/

theorem exactHits_eq_nil {target : String} {apps : List CatalogEntry}
    (hz : ∀ e ∈ apps, e.name ≠ target) : exactHits target apps = [] := by
  rw [exactHits, List.filter_eq_nil_iff]
  intro e he
  simpa using hz e he

/-- C2: with zero exact-name hits the resolver emits CreateNew when
auto-create is set (regardless of the dynamic-lookup flag), otherwise
proceeds to dynamic lookup when that flag is set, and otherwise ends in
NoMatch. -/
theorem zero_hits_policy (cfg : Config) (apps : List CatalogEntry)
    (hz : ∀ e ∈ apps, e.name ≠ cfg.custom_app_name) :
    (cfg.default_auto_create = true → resolveOutcome cfg apps = .CreateNew) ∧
    (cfg.default_auto_create = false → cfg.default_dynamic_lookup = true →
      findLibItemMatch cfg apps = findLibItemDynamic cfg apps []) ∧
    (cfg.default_auto_create = false → cfg.default_dynamic_lookup = false →
      resolveOutcome cfg apps = .NoMatch) := by
  have hpick := exactHits_eq_nil hz
  refine ⟨fun hac => ?_, fun hac hdl => ?_, fun hac hdl => ?_⟩
  · unfold resolveOutcome findLibItemMatch
    rw [hpick]
    simp [hac]
  · unfold findLibItemMatch
    rw [hpick]
    simp [hac, hdl]
  · unfold resolveOutcome findLibItemMatch
    rw [hpick]
    simp [hac, hdl]

theorem zero_hits_policy_witness :
    resolveOutcome (⟨"Zed", "App.pkg", "install_once", none, false, false⟩ : Config)
      [⟨"1", "A", "f/App.pkg", "install_once", false, none, "", "", ""⟩] =
      MatchOutcome.NoMatch :=
  (zero_hits_policy _ _ (by decide)).2.2 rfl rfl

/-- C4 (amended): under no-enforcement with a known category, narrowing
resolves exactly when one entry survives the category filter; otherwise
the hit set is unchanged — dynamic lookup is seeded with all original
hits when enabled, and with it disabled the outcome is Ambiguous listing
all original hits, provided every hit's `created_at` parses in the
fractional-seconds format (otherwise the run aborts fatally). -/
theorem multi_hit_category_narrowing (cfg : Config) (apps : List CatalogEntry)
    (hmulti : 1 < (exactHits cfg.custom_app_name apps).length)
    (henf : cfg.custom_app_enforcement = "no_enforcement")
    (hss : pyTruthyOptStr cfg.ss_category_id = true) :
    (∀ e, ssNarrow cfg (exactHits cfg.custom_app_name apps) = [e] →
      findLibItemMatch cfg apps = .found e) ∧
    ((ssNarrow cfg (exactHits cfg.custom_app_name apps)).length ≠ 1 →
      cfg.default_dynamic_lookup = true →
      findLibItemMatch cfg apps =
        findLibItemDynamic cfg apps (exactHits cfg.custom_app_name apps)) ∧
    ((ssNarrow cfg (exactHits cfg.custom_app_name apps)).length ≠ 1 →
      cfg.default_dynamic_lookup = false →
      (∀ e ∈ exactHits cfg.custom_app_name apps,
        (parseFmtFrac e.created_at).isSome = true) →
      findLibItemMatch cfg apps = .ambiguous (exactHits cfg.custom_app_name apps)) := by
  have hne : (exactHits cfg.custom_app_name apps).isEmpty = false := by
    cases hpick : exactHits cfg.custom_app_name apps with
    | nil => rw [hpick] at hmulti; simp at hmulti
    | cons e t => rfl
  refine ⟨fun e hnar => ?_, fun hlen hdl => ?_, fun hlen hdl hts => ?_⟩
  · unfold findLibItemMatch
    rw [hne, hnar]
    simp [henf, hss, hmulti]
  · unfold findLibItemMatch
    rw [hne]
    have hc : ((ssNarrow cfg (exactHits cfg.custom_app_name apps)).length == 1) = false := by
      simpa using hlen
    simp [hc, hdl, hmulti]
  · unfold findLibItemMatch
    rw [hne]
    have hc : ((ssNarrow cfg (exactHits cfg.custom_app_name apps)).length == 1) = false := by
      simpa using hlen
    have hall : (exactHits cfg.custom_app_name apps).all
        (fun a => (parseFmtFrac a.created_at).isSome) = true :=
      List.all_eq_true.mpr (fun e he => hts e he)
    simp [hc, hdl, hall, hmulti]

theorem multi_hit_category_narrowing_witness :
    findLibItemMatch
      (⟨"Chrome", "Chrome.pkg", "no_enforcement", some "7", false, false⟩ : Config)
      [⟨"1", "Chrome", "a/C1.pkg", "no_enforcement", true, some "7",
          "2024-01-01T00:00:00.000000Z", "", ""⟩,
        ⟨"2", "Chrome", "b/C2.pkg", "no_enforcement", true, some "7",
          "2024-01-02T00:00:00.000000Z", "", ""⟩,
        ⟨"3", "Chrome", "c/C3.pkg", "continuously_enforce", false, none,
          "2024-01-03T00:00:00.000000Z", "", ""⟩] =
      MatchResult.ambiguous
        [⟨"1", "Chrome", "a/C1.pkg", "no_enforcement", true, some "7",
            "2024-01-01T00:00:00.000000Z", "", ""⟩,
          ⟨"2", "Chrome", "b/C2.pkg", "no_enforcement", true, some "7",
            "2024-01-02T00:00:00.000000Z", "", ""⟩,
          ⟨"3", "Chrome", "c/C3.pkg", "continuously_enforce", false, none,
            "2024-01-03T00:00:00.000000Z", "", ""⟩] :=
  (multi_hit_category_narrowing _ _ (by decide) rfl (by decide)).2.2 (by decide) rfl
    (by decide)

/-- C4 counterexample: three exact hits, category narrowing keeps two,
dynamic lookup disabled, but one hit's `created_at` lacks fractional
seconds: the resolver aborts fatally instead of reporting Ambiguous. -/
theorem multi_hit_ambiguous_counterexample :
    (exactHits "Chrome"
        [⟨"1", "Chrome", "a/C1.pkg", "no_enforcement", true, some "7",
            "2024-01-01T00:00:00.000000Z", "", ""⟩,
          ⟨"2", "Chrome", "b/C2.pkg", "no_enforcement", true, some "7",
            "2024-01-02T00:00:00Z", "", ""⟩,
          ⟨"3", "Chrome", "c/C3.pkg", "continuously_enforce", false, none,
            "2024-01-03T00:00:00.000000Z", "", ""⟩]).length = 3 ∧
    (ssNarrow (⟨"Chrome", "Chrome.pkg", "no_enforcement", some "7", false, false⟩ : Config)
        (exactHits "Chrome"
          [⟨"1", "Chrome", "a/C1.pkg", "no_enforcement", true, some "7",
              "2024-01-01T00:00:00.000000Z", "", ""⟩,
            ⟨"2", "Chrome", "b/C2.pkg", "no_enforcement", true, some "7",
              "2024-01-02T00:00:00Z", "", ""⟩,
            ⟨"3", "Chrome", "c/C3.pkg", "continuously_enforce", false, none,
              "2024-01-03T00:00:00.000000Z", "", ""⟩])).length = 2 ∧
    findLibItemMatch
        (⟨"Chrome", "Chrome.pkg", "no_enforcement", some "7", false, false⟩ : Config)
        [⟨"1", "Chrome", "a/C1.pkg", "no_enforcement", true, some "7",
            "2024-01-01T00:00:00.000000Z", "", ""⟩,
          ⟨"2", "Chrome", "b/C2.pkg", "no_enforcement", true, some "7",
            "2024-01-02T00:00:00Z", "", ""⟩,
          ⟨"3", "Chrome", "c/C3.pkg", "continuously_enforce", false, none,
            "2024-01-03T00:00:00.000000Z", "", ""⟩] = MatchResult.fatal :=
  ⟨by decide, by decide, by decide⟩

theorem scopeByName_subset (m : List CatalogEntry) (pn : Option String) :
    scopeByName m pn ⊆ m := by
  unfold scopeByName
  split
  · cases pn with
    | some p => exact List.filter_subset' _
    | none => exact fun x hx => hx
  · exact fun x hx => hx

theorem finishDynamic_mem {apps : List CatalogEntry} {pn : Option String}
    {pkg : String} {e : CatalogEntry}
    (h : finishDynamic apps pn pkg = .found e) : e ∈ apps := by
  unfold finishDynamic at h
  split at h
  · exact absurd h (by simp)
  · rename_i e' rest heq
    have he' : e' ∈ scopeByName (apps.filter (fun a => pyIn pkg a.file_key)) pn := by
      rw [heq]
      exact List.mem_cons_self _ _
    have h2 : e' ∈ apps :=
      List.filter_subset' _ (scopeByName_subset _ _ he')
    have h3 : e' = e := by injection h
    exact h3 ▸ h2

theorem findLibItemDynamic_mem {cfg : Config} {apps seed : List CatalogEntry}
    {e : CatalogEntry} (h : findLibItemDynamic cfg apps seed = .found e) :
    e ∈ apps := by
  unfold findLibItemDynamic at h
  split at h
  · exact absurd h (by simp)
  · split at h
    · split at h
      · exact absurd h (by simp)
      · exact finishDynamic_mem h
    · exact finishDynamic_mem h

/-- C6: the resolver reports at most one entry as matched, and any matched
entry is an element of the input snapshot. -/
theorem resolver_matched_membership (cfg : Config) (apps : List CatalogEntry) :
    (matchedEntries (findLibItemMatch cfg apps)).length ≤ 1 ∧
    ∀ e, findLibItemMatch cfg apps = .found e → e ∈ apps := by
  constructor
  · cases findLibItemMatch cfg apps <;> simp [matchedEntries]
  · intro e h
    unfold findLibItemMatch at h
    split at h
    · split at h
      · exact absurd h (by simp)
      · split at h
        · exact findLibItemDynamic_mem h
        · exact absurd h (by simp)
    · split at h
      · split at h
        · split at h
          · rename_i e' rest heq
            have he' : e' ∈ ssNarrow cfg (exactHits cfg.custom_app_name apps) := by
              rw [heq]
              exact List.mem_cons_self _ _
            have h1 : e' ∈ exactHits cfg.custom_app_name apps :=
              List.filter_subset' _ he'
            have h2 : e' ∈ apps := List.filter_subset' _ h1
            have h3 : e' = e := by injection h
            exact h3 ▸ h2
          · exact absurd h (by simp)
        · split at h
          · exact findLibItemDynamic_mem h
          · split at h
            · exact absurd h (by simp)
            · exact absurd h (by simp)
      · split at h
        · rename_i e' rest heq
          have he' : e' ∈ exactHits cfg.custom_app_name apps := by
            rw [heq]
            exact List.mem_cons_self _ _
          have h2 : e' ∈ apps := List.filter_subset' _ he'
          have h3 : e' = e := by injection h
          exact h3 ▸ h2
        · exact absurd h (by simp)

theorem resolver_matched_membership_witness :
    (matchedEntries (findLibItemMatch
        (⟨"A", "App.pkg", "install_once", none, false, false⟩ : Config)
        [⟨"1", "A", "f/App.pkg", "install_once", false, none, "", "", ""⟩])).length ≤ 1 ∧
      (⟨"1", "A", "f/App.pkg", "install_once", false, none, "", "", ""⟩ : CatalogEntry) ∈
        [(⟨"1", "A", "f/App.pkg", "install_once", false, none, "", "", ""⟩ : CatalogEntry)] :=
  ⟨(resolver_matched_membership
      (⟨"A", "App.pkg", "install_once", none, false, false⟩ : Config)
      [⟨"1", "A", "f/App.pkg", "install_once", false, none, "", "", ""⟩]).1,
    (resolver_matched_membership
      (⟨"A", "App.pkg", "install_once", none, false, false⟩ : Config)
      [⟨"1", "A", "f/App.pkg", "install_once", false, none, "", "", ""⟩]).2
      ⟨"1", "A", "f/App.pkg", "install_once", false, none, "", "", ""⟩ (by decide)⟩

/-! # Sorting lemmas (Python `sorted(..., reverse=True)`) -/

theorem insertDescBy_perm (key : α → κ) (le : κ → κ → Bool) (x : α) (l : List α) :
    (insertDescBy key le x l).Perm (x :: l) := by
  induction l with
  | nil => exact List.Perm.refl _
  | cons y ys ih =>
    unfold insertDescBy
    split
    · exact List.Perm.refl _
    · exact (ih.cons y).trans (List.Perm.swap x y ys)

theorem sortDescBy_perm (key : α → κ) (le : κ → κ → Bool) (l : List α) :
    (sortDescBy key le l).Perm l := by
  induction l with
  | nil => exact List.Perm.refl _
  | cons x xs ih =>
    exact (insertDescBy_perm key le x (sortDescBy key le xs)).trans (ih.cons x)

theorem insertDescBy_pairwise (key : α → κ) (le : κ → κ → Bool)
    (htot : ∀ a b, le a b = true ∨ le b a = true)
    (htrans : ∀ a b c, le a b = true → le b c = true → le a c = true)
    (x : α) (l : List α)
    (hl : l.Pairwise (fun p q => le (key q) (key p) = true)) :
    (insertDescBy key le x l).Pairwise (fun p q => le (key q) (key p) = true) := by
  induction l with
  | nil => exact List.pairwise_singleton _ _
  | cons y ys ih =>
    unfold insertDescBy
    split
    · rename_i hle
      refine List.Pairwise.cons (fun z hz => ?_) hl
      rcases List.mem_cons.mp hz with rfl | hz'
      · exact hle
      · exact htrans _ _ _ (List.rel_of_pairwise_cons hl hz') hle
    · rename_i hnle
      have hxy : le (key x) (key y) = true := by
        rcases htot (key x) (key y) with h | h
        · exact h
        · exact absurd h hnle
      refine List.Pairwise.cons (fun z hz => ?_) (ih hl.of_cons)
      have hz' := (insertDescBy_perm key le x ys).mem_iff.mp hz
      rcases List.mem_cons.mp hz' with rfl | hz''
      · exact hxy
      · exact List.rel_of_pairwise_cons hl hz''

theorem sortDescBy_pairwise (key : α → κ) (le : κ → κ → Bool)
    (htot : ∀ a b, le a b = true ∨ le b a = true)
    (htrans : ∀ a b c, le a b = true → le b c = true → le a c = true)
    (l : List α) :
    (sortDescBy key le l).Pairwise (fun p q => le (key q) (key p) = true) := by
  induction l with
  | nil => simp [sortDescBy]
  | cons x xs ih => exact insertDescBy_pairwise key le htot htrans x _ ih

theorem insertDescBy_filter_eq [DecidableEq κ] (key : α → κ) (le : κ → κ → Bool)
    (hrefl : ∀ a, le a a = true) (x : α) (l : List α) (q : κ) :
    (insertDescBy key le x l).filter (fun p => decide (key p = q)) =
      if key x = q then x :: l.filter (fun p => decide (key p = q))
      else l.filter (fun p => decide (key p = q)) := by
  induction l with
  | nil =>
    by_cases hx : key x = q <;> simp [insertDescBy, hx]
  | cons y ys ih =>
    unfold insertDescBy
    split
    · rename_i hle
      by_cases hx : key x = q <;> simp [List.filter_cons, hx]
    · rename_i hnle
      by_cases hx : key x = q
      · have hy : ¬ key y = q := by
          intro hy
          exact hnle (by rw [hy, hx]; exact hrefl q)
        simp only [List.filter_cons, decide_eq_true_eq, if_neg hy, ih, if_pos hx,
          if_neg hy]
      · by_cases hy : key y = q <;>
          simp [List.filter_cons, hy, ih, hx]

theorem sortDescBy_filter_eq [DecidableEq κ] (key : α → κ) (le : κ → κ → Bool)
    (hrefl : ∀ a, le a a = true) (l : List α) (q : κ) :
    (sortDescBy key le l).filter (fun p => decide (key p = q)) =
      l.filter (fun p => decide (key p = q)) := by
  induction l with
  | nil => rfl
  | cons x xs ih =>
    show (insertDescBy key le x (sortDescBy key le xs)).filter _ = _
    rw [insertDescBy_filter_eq key le hrefl x _ q, ih]
    by_cases hx : key x = q <;> simp [List.filter_cons, hx]

/-! # Claim theorems: version ordering (C1) -/

/-- C1: the dynamic-lookup version ordering always succeeds — the sorted
dict is a permutation of its input (nothing raises, nothing is dropped) —
and an unparseable (non-numeric or empty) sanitized version carries the
legacy key `none`, which compares below every version key. -/
theorem version_ordering_never_fails :
    (∀ pp : List String, (pkgsVersionsSorted pp).Perm (pkgsVersions pp)) ∧
    (∀ s, parseVersion s = none →
      ∀ t, vkeyLe (parseVersion s) (parseVersion t) = true) := by
  constructor
  · intro pp
    exact sortDescBy_perm _ _ _
  · intro s hs t
    rw [hs]
    rfl

theorem version_ordering_never_fails_witness :
    (pkgsVersionsSorted ["abc.pkg", "App-1.2_abcd1234.pkg"]).Perm
        (pkgsVersions ["abc.pkg", "App-1.2_abcd1234.pkg"]) ∧
      vkeyLe (parseVersion "") (parseVersion "1.2.3") = true :=
  ⟨version_ordering_never_fails.1 ["abc.pkg", "App-1.2_abcd1234.pkg"],
    version_ordering_never_fails.2 "" (by decide) "1.2.3"⟩

/-! # Similarity ratio lemmas -/

theorem commonPrefixLen_self : ∀ (l : List Char), commonPrefixLen l l = l.length
  | [] => rfl
  | a :: as => by simp [commonPrefixLen, commonPrefixLen_self as]

theorem commonPrefixLen_le_left : ∀ (a b : List Char),
    commonPrefixLen a b ≤ a.length
  | [], _ => Nat.le_refl 0
  | _ :: _, [] => by simp [commonPrefixLen]
  | x :: xs, y :: ys => by
    unfold commonPrefixLen
    split
    · exact Nat.succ_le_succ (commonPrefixLen_le_left xs ys)
    · exact Nat.zero_le _

theorem foldl_best_stable (a b : List Char) :
    ∀ (T : List (Nat × Nat)) (acc : Nat × Nat × Nat),
      (∀ ij ∈ T, commonPrefixLen (a.drop ij.1) (b.drop ij.2) ≤ acc.2.2) →
      T.foldl
        (fun best ij =>
          let k := commonPrefixLen (a.drop ij.1) (b.drop ij.2)
          if best.2.2 < k then (ij.1, ij.2, k) else best)
        acc = acc
  | [], _, _ => rfl
  | ij :: T, acc, h => by
    have h1 := h ij (List.mem_cons_self _ _)
    simp only [List.foldl_cons]
    rw [if_neg (Nat.not_lt.mpr h1)]
    exact foldl_best_stable a b T acc (fun p hp => h p (List.mem_cons_of_mem _ hp))

theorem bestMatch_self {l : List Char} (hl : l ≠ []) :
    bestMatch l l = (0, 0, l.length) := by
  obtain ⟨c, t, rfl⟩ := List.exists_cons_of_ne_nil hl
  unfold bestMatch allIJ
  rw [show (c :: t).length = t.length + 1 from rfl, List.range_succ_eq_map]
  simp only [List.flatMap_cons, List.map_cons, List.cons_append, List.foldl_cons,
    List.drop_zero, commonPrefixLen_self, List.length_cons]
  rw [if_pos (Nat.succ_pos t.length)]
  refine foldl_best_stable (c :: t) (c :: t) _ _ (fun ij _ => ?_)
  calc commonPrefixLen ((c :: t).drop ij.1) ((c :: t).drop ij.2) ≤
      ((c :: t).drop ij.1).length := commonPrefixLen_le_left _ _
    _ ≤ t.length + 1 := by
        rw [List.length_drop]
        simp

theorem rMatchesGo_nil_nil : ∀ (fuel : Nat), rMatchesGo fuel [] [] = 0
  | 0 => rfl
  | _ + 1 => rfl

theorem rMatchesGo_succ_self (fuel : Nat) (l : List Char) :
    rMatchesGo (fuel + 1) l l = l.length := by
  cases l with
  | nil => rfl
  | cons c t =>
    have hb := bestMatch_self (List.cons_ne_nil c t)
    simp only [rMatchesGo, hb]
    simp [rMatchesGo_nil_nil]

theorem rMatches_self (l : List Char) : rMatches l l = l.length := by
  cases l with
  | nil => rfl
  | cons c t =>
    show rMatchesGo ((c :: t).length + (c :: t).length) (c :: t) (c :: t) =
      (c :: t).length
    have hf : (c :: t).length + (c :: t).length = (2 * t.length + 1) + 1 := by
      simp only [List.length_cons]
      omega
    rw [hf]
    exact rMatchesGo_succ_self _ _

theorem ratioScore_self (s : String) : ratioScore s s = 1 := by
  unfold ratioScore
  by_cases h : s.data.length + s.data.length = 0
  · rw [if_pos h]
    norm_num [Rat.mkRat_eq_div]
  · rw [if_neg h, rMatches_self,
      show (2 * (s.data.length : Int)) = ((s.data.length + s.data.length : Nat) : Int)
        from by push_cast; ring]
    have hpos : 0 < s.data.length + s.data.length := Nat.pos_of_ne_zero h
    have hn : ((s.data.length + s.data.length : Nat) : ℚ) ≠ 0 := by
      exact_mod_cast Nat.pos_iff_ne_zero.mp hpos
    rw [Rat.mkRat_eq_div]
    rw [show (((s.data.length + s.data.length : Nat) : Int) : ℚ) =
      ((s.data.length + s.data.length : Nat) : ℚ) from by push_cast; ring]
    exact div_self hn

/-! # Claim theorems: similarity ranking (C9) -/

theorem qle_refl (a : ℚ) : qle a a = true := by simp [qle]

/-- C9: the similarity ranking output is ordered by non-increasing score,
equal-score candidates keep their discovery order (the filter at any fixed
score is unchanged by the sort), and a candidate whose suffix-stripped
name equals the target scores exactly 1. -/
theorem rank_sorted_stable_selfscore :
    (∀ (pkgName : String) (apps : List CatalogEntry),
      (sortedSimilarPkgs pkgName apps).Pairwise (fun p q => q.2 ≤ p.2)) ∧
    (∀ (pkgName : String) (apps : List CatalogEntry) (q : ℚ),
      (sortedSimilarPkgs pkgName apps).filter (fun p => decide (p.2 = q)) =
        (similarityScores pkgName apps).filter (fun p => decide (p.2 = q))) ∧
    (∀ pkg target : String, stripSuffixStr pkg = target →
      simScore target pkg = 1) := by
  refine ⟨fun pkgName apps => ?_, fun pkgName apps q => ?_, fun pkg target h => ?_⟩
  · have hp := sortDescBy_pairwise (fun kv : String × ℚ => kv.2) qle
      (fun a b => by simp [qle]; exact le_total a b)
      (fun a b c h1 h2 => by
        simp [qle] at h1 h2 ⊢
        exact le_trans h1 h2)
      (similarityScores pkgName apps)
    exact hp.imp (fun h => by simpa [qle] using h)
  · exact sortDescBy_filter_eq (fun kv : String × ℚ => kv.2) qle qle_refl _ q
  · unfold simScore
    rw [h]
    exact ratioScore_self target

theorem rank_sorted_stable_selfscore_witness :
    simScore "a.pkg" "a_abcd1234.pkg" = 1 :=
  rank_sorted_stable_selfscore.2.2 "a_abcd1234.pkg" "a.pkg" (by decide)

/-! # Dict lemmas and the similarity filter (C5) -/

theorem mem_dictInsert_value {β : Type} (f : String → β) (k : String) :
    ∀ (d : List (String × β)), (∀ kv ∈ d, kv.2 = f kv.1) →
      ∀ kv ∈ dictInsert k (f k) d, kv.2 = f kv.1
  | [], _, kv, hkv => by
    simp only [dictInsert, List.mem_singleton] at hkv
    subst hkv
    rfl
  | (k', v') :: rest, hd, kv, hkv => by
    unfold dictInsert at hkv
    split at hkv
    · rcases List.mem_cons.mp hkv with rfl | hm
      · rfl
      · exact hd kv (List.mem_cons_of_mem _ hm)
    · rcases List.mem_cons.mp hkv with rfl | hm
      · exact hd _ (List.mem_cons_self _ _)
      · exact mem_dictInsert_value f k rest
          (fun p hp => hd p (List.mem_cons_of_mem _ hp)) kv hm

theorem scoresDict_value {β : Type} (f : String → β) (names : List String) :
    ∀ (d : List (String × β)), (∀ kv ∈ d, kv.2 = f kv.1) →
      ∀ kv ∈ names.foldl (fun d n => dictInsert n (f n) d) d, kv.2 = f kv.1 := by
  induction names with
  | nil => exact fun d hd kv hkv => hd kv hkv
  | cons n rest ih =>
    intro d hd kv hkv
    exact ih (dictInsert n (f n) d) (mem_dictInsert_value f n d hd) kv hkv

theorem self_mem_dictInsert {β : Type} (k : String) (v : β) :
    ∀ d : List (String × β), (k, v) ∈ dictInsert k v d
  | [] => List.mem_singleton.mpr rfl
  | (k', v') :: rest => by
    unfold dictInsert
    split
    · exact List.mem_cons_self _ _
    · exact List.mem_cons_of_mem _ (self_mem_dictInsert k v rest)

theorem mem_dictInsert_of_mem {β : Type} {k1 : String} {v1 : β} (k : String) (v : β) :
    ∀ (d : List (String × β)), (k1, v1) ∈ d → v1 = v ∨ k1 ≠ k →
      (k1, v1) ∈ dictInsert k v d
  | [], h, _ => absurd h (List.not_mem_nil _)
  | (k', v') :: rest, h, hor => by
    unfold dictInsert
    split
    · rename_i hk
      rcases List.mem_cons.mp h with heq | hm
      · injection heq with h1 h2
        subst h1; subst h2
        subst hk
        rcases hor with rfl | hne
        · exact List.mem_cons_self _ _
        · exact absurd rfl hne
      · exact List.mem_cons_of_mem _ hm
    · rcases List.mem_cons.mp h with heq | hm
      · exact heq ▸ List.mem_cons_self _ _
      · exact List.mem_cons_of_mem _ (mem_dictInsert_of_mem k v rest hm hor)

theorem mem_scoresDict {β : Type} (f : String → β) (names : List String) :
    ∀ (d : List (String × β)) (n : String),
      (n ∈ names ∨ (n, f n) ∈ d) →
      (n, f n) ∈ names.foldl (fun d m => dictInsert m (f m) d) d := by
  induction names with
  | nil =>
    intro d n h
    rcases h with h | h
    · exact absurd h (List.not_mem_nil _)
    · exact h
  | cons m rest ih =>
    intro d n h
    simp only [List.foldl_cons]
    by_cases hnm : n = m
    · subst hnm
      exact ih _ n (Or.inr (self_mem_dictInsert n (f n) d))
    · rcases h with h | h
      · rcases List.mem_cons.mp h with rfl | hm
        · exact absurd rfl hnm
        · exact ih _ n (Or.inl hm)
      · exact ih _ n (Or.inr (mem_dictInsert_of_mem m (f m) d h (Or.inr hnm)))

theorem similarityScores_value {pkgName : String} {apps : List CatalogEntry}
    {kv : String × ℚ} (h : kv ∈ similarityScores pkgName apps) :
    kv.2 = simScore pkgName kv.1 :=
  scoresDict_value (simScore pkgName) (allPkgNames apps) []
    (fun _ hp => absurd hp (List.not_mem_nil _)) kv h

theorem mem_similarityScores (pkgName : String) {b : String}
    {apps : List CatalogEntry} (hb : b ∈ allPkgNames apps) :
    (b, simScore pkgName b) ∈ similarityScores pkgName apps :=
  mem_scoresDict (simScore pkgName) (allPkgNames apps) [] b (Or.inl hb)

/-- C5: a catalog entry's package filename (a `.pkg` `file_key`) survives
the dynamic-lookup similarity filter exactly when its suffix-stripped
basename scores at least 0.85 against the new package's filename. -/
theorem similarity_filter_iff (pkgName : String) (apps : List CatalogEntry)
    (e : CatalogEntry) (he : e ∈ apps)
    (hp : pyEndsWith ".pkg" e.file_key = true) :
    basename e.file_key ∈ possiblePkgs pkgName apps ↔
      ratioLimit ≤ simScore pkgName (basename e.file_key) := by
  constructor
  · intro hmem
    unfold possiblePkgs at hmem
    rcases List.mem_map.mp hmem with ⟨kv, hkv, hfst⟩
    have hkv' := List.mem_filter.mp hkv
    have hdict : kv ∈ similarityScores pkgName apps :=
      ((sortDescBy_perm (fun kv : String × ℚ => kv.2) qle _).mem_iff).mp hkv'.1
    have hval := similarityScores_value hdict
    have hlim : ratioLimit ≤ kv.2 := by simpa using hkv'.2
    rw [hval, hfst] at hlim
    exact hlim
  · intro hlim
    have hb : basename e.file_key ∈ allPkgNames apps := by
      unfold allPkgNames
      exact List.mem_map.mpr ⟨e, List.mem_filter.mpr ⟨he, hp⟩, rfl⟩
    have hdict := mem_similarityScores pkgName hb
    have hsorted : (basename e.file_key, simScore pkgName (basename e.file_key)) ∈
        sortedSimilarPkgs pkgName apps :=
      ((sortDescBy_perm (fun kv : String × ℚ => kv.2) qle _).mem_iff).mpr hdict
    unfold possiblePkgs
    exact List.mem_map.mpr
      ⟨(basename e.file_key, simScore pkgName (basename e.file_key)),
        List.mem_filter.mpr ⟨hsorted, by simpa using hlim⟩, rfl⟩

set_option maxRecDepth 8192 in
theorem similarity_filter_iff_witness :
    (basename "f/App.pkg" ∈ possiblePkgs "App.pkg"
        [⟨"1", "A", "f/App.pkg", "install_once", false, none, "", "", ""⟩] ↔
      ratioLimit ≤ simScore "App.pkg" (basename "f/App.pkg")) ∧
    basename "f/App.pkg" ∈ possiblePkgs "App.pkg"
        [⟨"1", "A", "f/App.pkg", "install_once", false, none, "", "", ""⟩] :=
  ⟨similarity_filter_iff "App.pkg"
      [⟨"1", "A", "f/App.pkg", "install_once", false, none, "", "", ""⟩]
      ⟨"1", "A", "f/App.pkg", "install_once", false, none, "", "", ""⟩
      (by decide) (by decide),
    (similarity_filter_iff "App.pkg"
      [⟨"1", "A", "f/App.pkg", "install_once", false, none, "", "", ""⟩]
      ⟨"1", "A", "f/App.pkg", "install_once", false, none, "", "", ""⟩
      (by decide) (by decide)).mpr (by decide)⟩

/-! # Substring and order lemmas for the tie-break (C3) -/

theorem headSeg_refl : ∀ (l : List Char), headSeg l l = true
  | [] => rfl
  | a :: as => by simp [headSeg, headSeg_refl as]

theorem pyInL_suffix : ∀ (pre needle : List Char), pyInL needle (pre ++ needle) = true
  | [], [] => rfl
  | [], c :: cs => by
    show pyInL (c :: cs) (c :: cs) = true
    simp only [pyInL, headSeg_refl, Bool.true_or]
  | p :: ps, needle => by
    show pyInL needle (p :: (ps ++ needle)) = true
    simp only [pyInL, pyInL_suffix ps needle, Bool.or_true]

theorem pyIn_refl (s : String) : pyIn s s = true := by
  unfold pyIn
  have h := pyInL_suffix [] s.data
  simpa using h

theorem pyIn_basename (s : String) : pyIn (basename s) s = true := by
  show pyInL (s.data.reverse.takeWhile (fun c => c ≠ '/')).reverse s.data = true
  set rv := s.data.reverse with hrv
  have hsplit : (rv.dropWhile (fun c => c ≠ '/')).reverse ++
      (rv.takeWhile (fun c => c ≠ '/')).reverse = s.data := by
    rw [← List.reverse_append, List.takeWhile_append_dropWhile, hrv,
      List.reverse_reverse]
  rw [← hsplit]
  exact pyInL_suffix _ _

theorem releaseCmp_self : ∀ (a : List Nat), releaseCmp a a = Ordering.eq
  | [] => rfl
  | a :: as => by
    unfold releaseCmp
    rw [if_neg (Nat.lt_irrefl a), if_neg (Nat.lt_irrefl a)]
    exact releaseCmp_self as

theorem vkeyLe_refl : ∀ (k : Option (List Nat)), vkeyLe k k = true
  | none => rfl
  | some a => by simp [vkeyLe, releaseCmp_self]

theorem dtLt_irrefl (a : DT) : dtLt a a = false := by
  simp [dtLt]

theorem dtLt_asymm {a b : DT} (h : dtLt a b = true) : dtLt b a = false := by
  simp only [dtLt, Bool.or_eq_true, Bool.and_eq_true, decide_eq_true_eq,
    Bool.or_eq_false_iff, Bool.and_eq_false_iff, decide_eq_false_iff_not] at h ⊢
  omega

theorem dtPairLt_asymm {p q : DT × DT} (h : dtPairLt p q = true) :
    dtPairLt q p = false := by
  simp only [dtPairLt, Bool.or_eq_true, Bool.and_eq_true, decide_eq_true_eq] at h
  simp only [dtPairLt, Bool.or_eq_false_iff, Bool.and_eq_false_iff,
    decide_eq_false_iff_not]
  rcases h with h | ⟨heq, hlt⟩
  · refine ⟨dtLt_asymm h, Or.inl (fun he => ?_)⟩
    rw [he] at h
    rw [dtLt_irrefl] at h
    exact Bool.false_ne_true h
  · rw [heq]
    exact ⟨dtLt_irrefl _, Or.inr (dtLt_asymm hlt)⟩

/-! # Two-candidate computations for the tie-break -/

theorem dictInsert_nil {β : Type} (k : String) (v : β) :
    dictInsert k v [] = [(k, v)] := rfl

theorem dictInsert_cons {β : Type} (k : String) (v : β) (k' : String) (v' : β)
    (rest : List (String × β)) :
    dictInsert k v ((k', v') :: rest) =
      if k' = k then (k, v) :: rest else (k', v') :: dictInsert k v rest := rfl

theorem sortDescBy_nil (key : α → κ) (le : κ → κ → Bool) :
    sortDescBy key le ([] : List α) = [] := rfl

theorem sortDescBy_cons (key : α → κ) (le : κ → κ → Bool) (x : α) (xs : List α) :
    sortDescBy key le (x :: xs) = insertDescBy key le x (sortDescBy key le xs) := rfl

theorem insertDescBy_nil (key : α → κ) (le : κ → κ → Bool) (x : α) :
    insertDescBy key le x [] = [x] := rfl

theorem insertDescBy_cons (key : α → κ) (le : κ → κ → Bool) (x y : α) (ys : List α) :
    insertDescBy key le x (y :: ys) =
      if le (key y) (key x) = true then x :: y :: ys
      else y :: insertDescBy key le x ys := rfl

theorem dynamicPkgs_nil_seed (cfg : Config) (apps : List CatalogEntry) :
    dynamicPkgs cfg apps [] = possiblePkgs cfg.pkg_name apps := rfl

theorem allPkgNames_two {e1 e2 : CatalogEntry}
    (h1 : pyEndsWith ".pkg" e1.file_key = true)
    (h2 : pyEndsWith ".pkg" e2.file_key = true) :
    allPkgNames [e1, e2] = [basename e1.file_key, basename e2.file_key] := by
  simp [allPkgNames, List.filter_cons, h1, h2]

theorem similarityScores_two {pkgName : String} {e1 e2 : CatalogEntry}
    (h1 : pyEndsWith ".pkg" e1.file_key = true)
    (h2 : pyEndsWith ".pkg" e2.file_key = true)
    (hb : basename e1.file_key ≠ basename e2.file_key) :
    similarityScores pkgName [e1, e2] =
      [(basename e1.file_key, simScore pkgName (basename e1.file_key)),
        (basename e2.file_key, simScore pkgName (basename e2.file_key))] := by
  unfold similarityScores
  rw [allPkgNames_two h1 h2]
  simp only [List.foldl_cons, List.foldl_nil]
  rw [dictInsert_nil, dictInsert_cons, if_neg hb, dictInsert_nil]

theorem possiblePkgs_two {pkgName : String} {e1 e2 : CatalogEntry}
    (h1 : pyEndsWith ".pkg" e1.file_key = true)
    (h2 : pyEndsWith ".pkg" e2.file_key = true)
    (hb : basename e1.file_key ≠ basename e2.file_key)
    (hs1 : ratioLimit ≤ simScore pkgName (basename e1.file_key))
    (hs2 : ratioLimit ≤ simScore pkgName (basename e2.file_key)) :
    possiblePkgs pkgName [e1, e2] = [basename e1.file_key, basename e2.file_key] ∨
      possiblePkgs pkgName [e1, e2] = [basename e2.file_key, basename e1.file_key] := by
  unfold possiblePkgs sortedSimilarPkgs
  rw [similarityScores_two h1 h2 hb]
  rw [sortDescBy_cons, sortDescBy_cons, sortDescBy_nil, insertDescBy_nil,
    insertDescBy_cons]
  by_cases hq : qle (simScore pkgName (basename e2.file_key))
      (simScore pkgName (basename e1.file_key)) = true
  · left
    rw [if_pos hq]
    simp [List.filter_cons, decide_eq_true hs1, decide_eq_true hs2]
  · right
    rw [if_neg hq, insertDescBy_nil]
    simp [List.filter_cons, decide_eq_true hs1, decide_eq_true hs2]

theorem pkgsVersionsSorted_two_equal {x y : String} (hxy : x ≠ y)
    (hv : sanitize x = sanitize y) :
    pkgsVersionsSorted [x, y] = [(x, sanitize x), (y, sanitize y)] := by
  unfold pkgsVersionsSorted pkgsVersions
  simp only [List.foldl_cons, List.foldl_nil]
  rw [dictInsert_nil, dictInsert_cons, if_neg hxy, dictInsert_nil]
  rw [sortDescBy_cons, sortDescBy_cons, sortDescBy_nil, insertDescBy_nil,
    insertDescBy_cons]
  rw [if_pos]
  show vkeyLe (parseVersion (sanitize y)) (parseVersion (sanitize x)) = true
  rw [hv]
  exact vkeyLe_refl _

theorem highestVers_two_equal {x y v : String} :
    highestVers [(x, v), (y, v)] v = [x, y] := by
  unfold highestVers
  simp [List.filter_cons, pyIn_refl]

theorem minByDt_two {k1 k2 up1 mo1 up2 mo2 : String} {u1 m1 u2 m2 : DT}
    (h1 : parseDt up1 = some u1) (h2 : parseDt mo1 = some m1)
    (h3 : parseDt up2 = some u2) (h4 : parseDt mo2 = some m2) :
    minByDt [(k1, up1, mo1), (k2, up2, mo2)] =
      some (if dtPairLt (u2, m2) (u1, m1) = true then k2 else k1) := by
  unfold minByDt
  simp [List.mapM.loop, h1, h2, h3, h4, apply_ite Prod.fst]

theorem findLibItemDynamic_eq (cfg : Config) (apps seed : List CatalogEntry)
    (p : String × String) (rest : List (String × String))
    (hpvs : pkgsVersionsSorted (dynamicPkgs cfg apps seed) = p :: rest) :
    findLibItemDynamic cfg apps seed =
      if 1 < (highestVers ((p.1, p.2) :: rest) p.2).length then
        match minByDt (updatedMap apps (highestVers ((p.1, p.2) :: rest) p.2)) with
        | none => MatchResult.fatal
        | some oldest => finishDynamic apps (seedName seed) oldest
      else finishDynamic apps (seedName seed) p.1 := by
  obtain ⟨a, b⟩ := p
  unfold findLibItemDynamic
  rw [hpvs]

theorem finishDynamic_two_first {e1 e2 : CatalogEntry} {apps : List CatalogEntry}
    (happs : apps = [e1, e2] ∨ apps = [e2, e1])
    (hn1 : pyIn (basename e1.file_key) e2.file_key = false) :
    finishDynamic apps none (basename e1.file_key) = .found e1 := by
  unfold finishDynamic
  rcases happs with rfl | rfl
  · rw [show List.filter (fun a => pyIn (basename e1.file_key) a.file_key) [e1, e2] =
        [e1] from by simp [List.filter_cons, pyIn_basename, hn1]]
    rfl
  · rw [show List.filter (fun a => pyIn (basename e1.file_key) a.file_key) [e2, e1] =
        [e1] from by simp [List.filter_cons, pyIn_basename, hn1]]
    rfl

theorem updatedMap_two_first {e1 e2 : CatalogEntry} {apps : List CatalogEntry}
    (happs : apps = [e1, e2] ∨ apps = [e2, e1])
    (hb : basename e1.file_key ≠ basename e2.file_key)
    (hn1 : pyIn (basename e1.file_key) e2.file_key = false)
    (hn2 : pyIn (basename e2.file_key) e1.file_key = false) :
    updatedMap apps [basename e1.file_key, basename e2.file_key] =
      [(basename e1.file_key, e1.file_updated, e1.updated_at),
        (basename e2.file_key, e2.file_updated, e2.updated_at)] := by
  rcases happs with rfl | rfl <;>
    · unfold updatedMap
      simp only [List.foldl_cons, List.foldl_nil]
      simp [List.find?, pyIn_basename, hn1, hn2, dictInsert_nil, dictInsert_cons, hb]

/-- C3 auxiliary: with exactly two dynamic candidates tied on sanitized
version, the resolver picks the entry whose timestamp pair is
lexicographically least, for either input order of the snapshot. -/
theorem dynamic_two_tiebreak (cfg : Config) (e1 e2 : CatalogEntry)
    (apps : List CatalogEntry)
    (happs : apps = [e1, e2] ∨ apps = [e2, e1])
    (h1 : pyEndsWith ".pkg" e1.file_key = true)
    (h2 : pyEndsWith ".pkg" e2.file_key = true)
    (hb : basename e1.file_key ≠ basename e2.file_key)
    (hn1 : pyIn (basename e1.file_key) e2.file_key = false)
    (hn2 : pyIn (basename e2.file_key) e1.file_key = false)
    (hs1 : ratioLimit ≤ simScore cfg.pkg_name (basename e1.file_key))
    (hs2 : ratioLimit ≤ simScore cfg.pkg_name (basename e2.file_key))
    (hv : sanitize (basename e1.file_key) = sanitize (basename e2.file_key))
    (u1 m1 u2 m2 : DT)
    (ht1 : parseDt e1.file_updated = some u1)
    (ht2 : parseDt e1.updated_at = some m1)
    (ht3 : parseDt e2.file_updated = some u2)
    (ht4 : parseDt e2.updated_at = some m2)
    (hlt : dtPairLt (u1, m1) (u2, m2) = true) :
    findLibItemDynamic cfg apps [] = .found e1 := by
  have hpp : possiblePkgs cfg.pkg_name apps =
      [basename e1.file_key, basename e2.file_key] ∨
      possiblePkgs cfg.pkg_name apps =
      [basename e2.file_key, basename e1.file_key] := by
    rcases happs with rfl | rfl
    · exact possiblePkgs_two h1 h2 hb hs1 hs2
    · exact (possiblePkgs_two h2 h1 (Ne.symm hb) hs2 hs1).symm
  have hum := updatedMap_two_first happs hb hn1 hn2
  have hum2 : updatedMap apps [basename e2.file_key, basename e1.file_key] =
      [(basename e2.file_key, e2.file_updated, e2.updated_at),
        (basename e1.file_key, e1.file_updated, e1.updated_at)] :=
    updatedMap_two_first (happs.symm.imp id id) (Ne.symm hb) hn2 hn1
  rcases hpp with hpp | hpp
  · have hpvs : pkgsVersionsSorted (dynamicPkgs cfg apps []) =
        (basename e1.file_key, sanitize (basename e1.file_key)) ::
          [(basename e2.file_key, sanitize (basename e2.file_key))] := by
      rw [dynamicPkgs_nil_seed, hpp]
      exact pkgsVersionsSorted_two_equal hb hv
    rw [findLibItemDynamic_eq cfg apps [] _ _ hpvs]
    have hhv : highestVers
        ((basename e1.file_key, sanitize (basename e1.file_key)) ::
          [(basename e2.file_key, sanitize (basename e2.file_key))])
        (sanitize (basename e1.file_key)) = [basename e1.file_key, basename e2.file_key] := by
      rw [show [(basename e2.file_key, sanitize (basename e2.file_key))] =
        [(basename e2.file_key, sanitize (basename e1.file_key))] from by rw [hv]]
      exact highestVers_two_equal
    simp only [hhv]
    rw [if_pos (by simp)]
    rw [hum, minByDt_two ht1 ht2 ht3 ht4, dtPairLt_asymm hlt]
    simp only [Bool.false_eq_true, if_false]
    exact finishDynamic_two_first happs hn1
  · have hpvs : pkgsVersionsSorted (dynamicPkgs cfg apps []) =
        (basename e2.file_key, sanitize (basename e2.file_key)) ::
          [(basename e1.file_key, sanitize (basename e1.file_key))] := by
      rw [dynamicPkgs_nil_seed, hpp]
      exact pkgsVersionsSorted_two_equal (Ne.symm hb) hv.symm
    rw [findLibItemDynamic_eq cfg apps [] _ _ hpvs]
    have hhv : highestVers
        ((basename e2.file_key, sanitize (basename e2.file_key)) ::
          [(basename e1.file_key, sanitize (basename e1.file_key))])
        (sanitize (basename e2.file_key)) = [basename e2.file_key, basename e1.file_key] := by
      rw [show [(basename e1.file_key, sanitize (basename e1.file_key))] =
        [(basename e1.file_key, sanitize (basename e2.file_key))] from by rw [hv]]
      exact highestVers_two_equal
    simp only [hhv]
    rw [if_pos (by simp)]
    rw [hum2, minByDt_two ht3 ht4 ht1 ht2, hlt]
    simp only [if_true]
    exact finishDynamic_two_first happs hn1

/-- C3: when exactly two dynamic-lookup candidates share the identical
highest sanitized version and all four timestamps parse in one of the two
accepted formats, the resolver selects the candidate with the earliest
`file_updated` timestamp, breaking a further tie by the earliest
`updated_at` timestamp, independently of the order in which the candidates
appear in the input snapshot. -/
theorem tiebreak_earliest_order_independent (cfg : Config) (e1 e2 : CatalogEntry)
    (h1 : pyEndsWith ".pkg" e1.file_key = true)
    (h2 : pyEndsWith ".pkg" e2.file_key = true)
    (hb : basename e1.file_key ≠ basename e2.file_key)
    (hn1 : pyIn (basename e1.file_key) e2.file_key = false)
    (hn2 : pyIn (basename e2.file_key) e1.file_key = false)
    (hs1 : ratioLimit ≤ simScore cfg.pkg_name (basename e1.file_key))
    (hs2 : ratioLimit ≤ simScore cfg.pkg_name (basename e2.file_key))
    (hv : sanitize (basename e1.file_key) = sanitize (basename e2.file_key))
    (u1 m1 u2 m2 : DT)
    (ht1 : parseDt e1.file_updated = some u1)
    (ht2 : parseDt e1.updated_at = some m1)
    (ht3 : parseDt e2.file_updated = some u2)
    (ht4 : parseDt e2.updated_at = some m2)
    (hearlier : dtLt u1 u2 = true ∨ (u1 = u2 ∧ dtLt m1 m2 = true)) :
    findLibItemDynamic cfg [e1, e2] [] = .found e1 ∧
      findLibItemDynamic cfg [e2, e1] [] = .found e1 := by
  have hlt : dtPairLt (u1, m1) (u2, m2) = true := by
    simp only [dtPairLt, Bool.or_eq_true, Bool.and_eq_true, decide_eq_true_eq]
    exact hearlier
  exact ⟨dynamic_two_tiebreak cfg e1 e2 [e1, e2] (Or.inl rfl) h1 h2 hb hn1 hn2
      hs1 hs2 hv u1 m1 u2 m2 ht1 ht2 ht3 ht4 hlt,
    dynamic_two_tiebreak cfg e1 e2 [e2, e1] (Or.inr rfl) h1 h2 hb hn1 hn2
      hs1 hs2 hv u1 m1 u2 m2 ht1 ht2 ht3 ht4 hlt⟩

set_option maxRecDepth 8192 in
theorem tiebreak_earliest_order_independent_witness :
    findLibItemDynamic
        (⟨"Z", "A-1.pkg", "install_once", none, false, true⟩ : Config)
        [⟨"1", "A", "a/A-1_aaaabbbb.pkg", "install_once", false, none,
            "2024-01-01T00:00:00.000000Z", "2024-01-02T00:00:00.000000Z",
            "2024-01-04T00:00:00Z"⟩,
          ⟨"2", "B", "b/B-1_ccccdddd.pkg", "install_once", false, none,
            "2024-01-01T00:00:00.000000Z", "2024-01-02T00:00:00.000000Z",
            "2024-01-05T00:00:00Z"⟩] [] =
      MatchResult.found
        ⟨"1", "A", "a/A-1_aaaabbbb.pkg", "install_once", false, none,
          "2024-01-01T00:00:00.000000Z", "2024-01-02T00:00:00.000000Z",
          "2024-01-04T00:00:00Z"⟩ ∧
    findLibItemDynamic
        (⟨"Z", "A-1.pkg", "install_once", none, false, true⟩ : Config)
        [⟨"2", "B", "b/B-1_ccccdddd.pkg", "install_once", false, none,
            "2024-01-01T00:00:00.000000Z", "2024-01-02T00:00:00.000000Z",
            "2024-01-05T00:00:00Z"⟩,
          ⟨"1", "A", "a/A-1_aaaabbbb.pkg", "install_once", false, none,
            "2024-01-01T00:00:00.000000Z", "2024-01-02T00:00:00.000000Z",
            "2024-01-04T00:00:00Z"⟩] [] =
      MatchResult.found
        ⟨"1", "A", "a/A-1_aaaabbbb.pkg", "install_once", false, none,
          "2024-01-01T00:00:00.000000Z", "2024-01-02T00:00:00.000000Z",
          "2024-01-04T00:00:00Z"⟩ :=
  tiebreak_earliest_order_independent
    (⟨"Z", "A-1.pkg", "install_once", none, false, true⟩ : Config)
    ⟨"1", "A", "a/A-1_aaaabbbb.pkg", "install_once", false, none,
      "2024-01-01T00:00:00.000000Z", "2024-01-02T00:00:00.000000Z",
      "2024-01-04T00:00:00Z"⟩
    ⟨"2", "B", "b/B-1_ccccdddd.pkg", "install_once", false, none,
      "2024-01-01T00:00:00.000000Z", "2024-01-02T00:00:00.000000Z",
      "2024-01-05T00:00:00Z"⟩
    (by decide) (by decide) (by decide) (by decide) (by decide) (by decide)
    (by decide) (by decide)
    ⟨2024, 1, 4, 0, 0, 0, 0⟩ ⟨2024, 1, 2, 0, 0, 0, 0⟩
    ⟨2024, 1, 5, 0, 0, 0, 0⟩ ⟨2024, 1, 2, 0, 0, 0, 0⟩
    (by decide) (by decide) (by decide) (by decide) (Or.inl (by decide))

set_option maxRecDepth 16384 in
/-- C3 counterexample: two dynamic-lookup candidates tied on the identical
highest sanitized version "2.1", all four timestamps parseable, and the
first entry's `file_updated` strictly earliest — yet the selection depends
on the snapshot order, because the basename "App-2.1.pkg" occurs as a
substring inside the other entry's `file_key` "b/XApp-2.1.pkg", so the
substring lookups (`utils.py:614`, `utils.py:636`) alias the wrong entry:
order `[e1, e2]` resolves to e1 but order `[e2, e1]` resolves to e2. -/
theorem tiebreak_order_dependent_counterexample :
    sanitize (basename (⟨"1", "A", "a/App-2.1.pkg", "install_once", false, none,
        "2024-01-01T00:00:00.000000Z", "2024-01-02T00:00:00.000000Z",
        "2024-01-04T00:00:00Z"⟩ : CatalogEntry).file_key) =
      sanitize (basename (⟨"2", "B", "b/XApp-2.1.pkg", "install_once", false, none,
        "2024-01-01T00:00:00.000000Z", "2024-01-02T00:00:00.000000Z",
        "2024-01-05T00:00:00Z"⟩ : CatalogEntry).file_key) ∧
    ratioLimit ≤ simScore "App-2.1.pkg" (basename "a/App-2.1.pkg") ∧
    ratioLimit ≤ simScore "App-2.1.pkg" (basename "b/XApp-2.1.pkg") ∧
    parseDt "2024-01-04T00:00:00Z" = some ⟨2024, 1, 4, 0, 0, 0, 0⟩ ∧
    parseDt "2024-01-05T00:00:00Z" = some ⟨2024, 1, 5, 0, 0, 0, 0⟩ ∧
    parseDt "2024-01-02T00:00:00.000000Z" = some ⟨2024, 1, 2, 0, 0, 0, 0⟩ ∧
    dtLt ⟨2024, 1, 4, 0, 0, 0, 0⟩ ⟨2024, 1, 5, 0, 0, 0, 0⟩ = true ∧
    findLibItemDynamic
        (⟨"Z", "App-2.1.pkg", "install_once", none, false, true⟩ : Config)
        [⟨"1", "A", "a/App-2.1.pkg", "install_once", false, none,
            "2024-01-01T00:00:00.000000Z", "2024-01-02T00:00:00.000000Z",
            "2024-01-04T00:00:00Z"⟩,
          ⟨"2", "B", "b/XApp-2.1.pkg", "install_once", false, none,
            "2024-01-01T00:00:00.000000Z", "2024-01-02T00:00:00.000000Z",
            "2024-01-05T00:00:00Z"⟩] [] =
      MatchResult.found
        ⟨"1", "A", "a/App-2.1.pkg", "install_once", false, none,
          "2024-01-01T00:00:00.000000Z", "2024-01-02T00:00:00.000000Z",
          "2024-01-04T00:00:00Z"⟩ ∧
    findLibItemDynamic
        (⟨"Z", "App-2.1.pkg", "install_once", none, false, true⟩ : Config)
        [⟨"2", "B", "b/XApp-2.1.pkg", "install_once", false, none,
            "2024-01-01T00:00:00.000000Z", "2024-01-02T00:00:00.000000Z",
            "2024-01-05T00:00:00Z"⟩,
          ⟨"1", "A", "a/App-2.1.pkg", "install_once", false, none,
            "2024-01-01T00:00:00.000000Z", "2024-01-02T00:00:00.000000Z",
            "2024-01-04T00:00:00Z"⟩] [] =
      MatchResult.found
        ⟨"2", "B", "b/XApp-2.1.pkg", "install_once", false, none,
          "2024-01-01T00:00:00.000000Z", "2024-01-02T00:00:00.000000Z",
          "2024-01-05T00:00:00Z"⟩ := by
  refine ⟨by decide, by decide, by decide, by decide, by decide, by decide,
    by decide, by decide, by decide⟩

end KAPPA
